import Mathlib

/-!
Shallow embedding of the core logic of the catrees repository
(src/catrees/inat.py and src/catrees/cli.py) and proofs about it.

Python floats are modelled as exact rationals, Python strings as Lean
strings (Python compares strings lexicographically by code point, as does
the Lean order on String), Python dicts (insertion ordered) as association
lists in insertion order, and Python exceptions as Except values.
-/

namespace Catrees

/-! ### Python primitives -/

/-- Python round(): round half to even (banker's rounding), from cli usage
round(obs["lat"] / grid_size) in inat.py cluster_observations. -/
def pyRound (q : ℚ) : ℤ :=
  let f : ℤ := q.num.fdiv (q.den : ℤ)
  let r : ℚ := q - (f : ℚ)
  if r < 1/2 then f
  else if 1/2 < r then f + 1
  else if f % 2 = 0 then f else f + 1

/-- Python str.lower() on one character, restricted to ASCII letters
(the scientific names handled by the code are ASCII). -/
def pyLowerChar (c : Char) : Char :=
  if h : 65 ≤ c.toNat ∧ c.toNat ≤ 90 then
    Char.ofNatAux (c.toNat + 32) (Or.inl (by omega))
  else c

/-- Python str.lower(): lowercase every character. -/
def pyLower (s : String) : String :=
  ⟨s.data.map pyLowerChar⟩

/-- ASCII whitespace, the separator set of Python str.split() relevant here. -/
def isWsChar (c : Char) : Bool :=
  c = ' ' || c = '\t' || c = '\n' || c = '\x0d' || c = '\x0b' || c = '\x0c'

/-- Helper for pySplitWs: accumulate the current word (reversed) while
scanning the character list. -/
def wordsAux : List Char → List Char → List (List Char)
  | [], acc => if acc.isEmpty then [] else [acc.reverse]
  | c :: cs, acc =>
    if isWsChar c then
      if acc.isEmpty then wordsAux cs [] else acc.reverse :: wordsAux cs []
    else wordsAux cs (c :: acc)

/-- Python str.split() with no argument: split on whitespace runs and
discard empty tokens. -/
def pySplitWs (s : String) : List String :=
  (wordsAux s.data []).map (fun l => ⟨l⟩)

/-- Python " ".join(parts). -/
def joinSp : List String → String
  | [] => ""
  | [s] => s
  | s :: t => s ++ " " ++ joinSp t

/-! ### SeenMatcher: is_seen from cli.py (closure inside the nearby command).
The Python set of seen names is modelled as a list with membership. -/

/-- is_seen from cli.py lines 79-87: lowercase the candidate, test direct
membership, else when the name has more than two whitespace tokens test the
binomial of the first two tokens. -/
def is_seen (sci_name : String) (seen : List String) : Bool :=
  let name := pyLower sci_name
  if name ∈ seen then true
  else
    let parts := pySplitWs name
    if 2 < parts.length then decide (joinSp (parts.take 2) ∈ seen)
    else false

/-! ### Data model

An Obs is a parsed observation record as produced by _parse_location in
inat.py: the dict with keys lat, lng, observed_on, place_guess. -/

structure Obs where
  lat : ℚ
  lng : ℚ
  observed_on : String
  place_guess : String
deriving DecidableEq

/-- The errors Python can raise in the modelled code. The code itself never
raises invalidArgument; the constructor exists so statements about it can be
made. -/
inductive PyErr where
  | zeroDivisionError
  | invalidArgument
deriving DecidableEq

/-! ### Insertion-ordered dictionaries

Python dicts (and defaultdicts) iterate in insertion order. They are
modelled as association lists; upsert is defaultdict access d[k] followed
by an update of the entry. -/

/-- Lookup in an association list. -/
def alookup {κ ν : Type} [DecidableEq κ] (k : κ) : List (κ × ν) → Option ν
  | [] => none
  | (k', v) :: rest => if k' = k then some v else alookup k rest

/-- defaultdict access d[k] (creating a default entry at the end when the
key is absent) followed by an in-place update f of the entry. -/
def upsert {κ ν : Type} [DecidableEq κ] (d : ν) (k : κ) (f : ν → ν) :
    List (κ × ν) → List (κ × ν)
  | [] => [(k, f d)]
  | (k', v) :: rest =>
    if k' = k then (k', f v) :: rest else (k', v) :: upsert d k f rest

/-- The keys of an association list, in insertion order. -/
def akeys {κ ν : Type} (m : List (κ × ν)) : List κ := m.map Prod.fst

/-- Keys in order of first encounter: the insertion order a Python dict
acquires while processing the key sequence ks starting from keys acc. -/
def insOrder {κ : Type} [DecidableEq κ] (acc : List κ) (ks : List κ) : List κ :=
  ks.foldl (fun a k => if k ∈ a then a else a ++ [k]) acc

/-! ### GridClusterer: cluster_observations from inat.py lines 171-210 -/

/-- The per-cell accumulator of cluster_observations: the defaultdict value
dict with keys count, lat_sum, lng_sum, last_seen, place_guess. -/
structure CellAcc where
  count : ℕ
  lat_sum : ℚ
  lng_sum : ℚ
  last_seen : String
  place_guess : String
deriving DecidableEq

/-- The defaultdict default cell of cluster_observations. -/
def defaultCell : CellAcc := ⟨0, 0, 0, "", ""⟩

/-- The loop body of cluster_observations acting on one cell: increment
count, add to the coordinate sums, and when observed_on is strictly greater
than last_seen (Python compares strings lexicographically by code point,
initial last_seen is the empty string) take over last_seen and place_guess. -/
def updateCell (o : Obs) (c : CellAcc) : CellAcc :=
  let c1 : CellAcc :=
    ⟨c.count + 1, c.lat_sum + o.lat, c.lng_sum + o.lng, c.last_seen, c.place_guess⟩
  if c1.last_seen < o.observed_on then
    ⟨c1.count, c1.lat_sum, c1.lng_sum, o.observed_on, o.place_guess⟩
  else c1

/-- The grid cell key of an observation: round(lat / grid_size) * grid_size
and likewise for lng. -/
def gridKey (grid_size : ℚ) (o : Obs) : ℚ × ℚ :=
  ((pyRound (o.lat / grid_size) : ℚ) * grid_size,
   (pyRound (o.lng / grid_size) : ℚ) * grid_size)

/-- One iteration of the clustering loop. -/
def clusterStep (grid_size : ℚ) (m : List ((ℚ × ℚ) × CellAcc)) (o : Obs) :
    List ((ℚ × ℚ) × CellAcc) :=
  upsert defaultCell (gridKey grid_size o) (updateCell o) m

/-- A result row of cluster_observations: the dict with keys count, lat,
lng, last_seen, place_guess. -/
structure Cluster where
  count : ℕ
  lat : ℚ
  lng : ℚ
  last_seen : String
  place_guess : String
deriving DecidableEq

/-- Building one result row from a cell: lat and lng become the sums divided
by the count. -/
def mkCluster (c : CellAcc) : Cluster :=
  ⟨c.count, c.lat_sum / (c.count : ℚ), c.lng_sum / (c.count : ℚ), c.last_seen, c.place_guess⟩

/-- The comparison used by sorted(result, reverse=True) on the count key:
descending, and Python sorted is stable. -/
def clusterDescLe (a b : Cluster) : Bool := b.count ≤ a.count

/-- cluster_observations from inat.py. In Python, when grid_size is zero and
at least one observation is processed, the division lat / grid_size raises
ZeroDivisionError; that is modelled by the error branch. The function has no
grid_size validation of its own. The Python default grid_size is 0.1. -/
def cluster_observations (observations : List Obs) (grid_size : ℚ) :
    Except PyErr (List Cluster) :=
  if grid_size = 0 ∧ observations ≠ [] then Except.error PyErr.zeroDivisionError
  else Except.ok
    (((observations.foldl (clusterStep grid_size) []).map
        (fun kc => mkCluster kc.2)).mergeSort clusterDescLe)

/-! ### ObservationAggregator: the record loop of get_nearby_observations
(inat.py lines 52-99) together with _parse_location (lines 10-41) -/

/-- The taxon sub-dict of an API record: the fields the code reads with
taxon.get("id"), taxon.get("name", ""), taxon.get("preferred_common_name", "").
A missing key is modelled by the corresponding .get default. -/
structure Taxon where
  taxon_id : Option ℤ
  name : String
  preferred_common_name : String
deriving DecidableEq

/-- The value of obs["location"] when it is truthy: either a list/tuple or a
comma separated string. An element is some q when Python float() succeeds on
it with value q, and none when float() raises ValueError or TypeError. For
the string case, parts is the comma split of the string. -/
inductive PyLocation where
  | listLoc (elems : List (Option ℚ))
  | strLoc (parts : List (Option ℚ))
deriving DecidableEq

/-- An API observation record with the fields the code reads. taxon = none
models a falsy taxon (absent, None or empty); location = none models a falsy
location (absent, None, empty string or empty list). observed_on is the
already stringified date, place_guess the obs.get("place_guess", "") value. -/
structure ApiObs where
  taxon : Option Taxon
  location : Option PyLocation
  observed_on : String
  place_guess : String
deriving DecidableEq

/-- _parse_location from inat.py lines 10-41: a falsy location gives None;
a list or tuple must have exactly two float()-convertible elements; a string
must split on the comma into exactly two float()-parseable parts. -/
def parse_location (o : ApiObs) : Option Obs :=
  match o.location with
  | none => none
  | some (PyLocation.listLoc es) =>
    match es with
    | [some a, some b] => some ⟨a, b, o.observed_on, o.place_guess⟩
    | _ => none
  | some (PyLocation.strLoc ps) =>
    match ps with
    | [some a, some b] => some ⟨a, b, o.observed_on, o.place_guess⟩
    | _ => none

/-- The species_counts defaultdict value of get_nearby_observations. -/
structure SpeciesEntry where
  count : ℕ
  taxon_id : Option ℤ
  scientific_name : String
  common_name : String
  locations : List Obs
deriving DecidableEq

/-- The defaultdict default entry of get_nearby_observations. -/
def defaultEntry : SpeciesEntry := ⟨0, none, "", "", []⟩

/-- The per-record update of get_nearby_observations: increment count,
overwrite taxon_id, scientific_name and common_name with the current record
values, and append the parsed location when there is one (the code guards
with if location before calling _parse_location, which itself rejects falsy
locations, so appending exactly when _parse_location succeeds is the same). -/
def updateEntry (o : ApiObs) (t : Taxon) (e : SpeciesEntry) : SpeciesEntry :=
  ⟨e.count + 1, t.taxon_id, t.name, t.preferred_common_name,
   e.locations ++ (parse_location o).toList⟩

/-- One iteration of the aggregation loop of get_nearby_observations: skip
records with a falsy taxon or an empty lowercased name, otherwise update the
entry keyed by the lowercased scientific name. -/
def aggStep (m : List (String × SpeciesEntry)) (o : ApiObs) :
    List (String × SpeciesEntry) :=
  match o.taxon with
  | none => m
  | some t =>
    let name := pyLower t.name
    if name = "" then m
    else upsert defaultEntry name (updateEntry o t) m

/-- Processing one page of results into the running species_counts map. -/
def aggregate_page (m : List (String × SpeciesEntry)) (results : List ApiObs) :
    List (String × SpeciesEntry) :=
  results.foldl aggStep m

/-- The comparison used by sorted(species_counts.values(), reverse=True) on
the count key. -/
def speciesDescLe (a b : SpeciesEntry) : Bool := b.count ≤ a.count

/-- The return of get_nearby_observations: the dict values in insertion
order, stably sorted by count descending. -/
def finalize (m : List (String × SpeciesEntry)) : List SpeciesEntry :=
  (m.map Prod.snd).mergeSort speciesDescLe

/-! ### Generic lemmas about the insertion-ordered dictionary folds

Both loops above are instances of one pattern: items are scanned left to
right, an item either is skipped (key = none) or updates the entry at its
key, where a fresh default entry is created at the end of the dict on first
encounter. -/

/-- One generic loop iteration: skip, or upsert at the item key. -/
def mapStep {ι κ ν : Type} [DecidableEq κ] (key : ι → Option κ) (upd : ι → ν → ν)
    (d : ν) (m : List (κ × ν)) (i : ι) : List (κ × ν) :=
  match key i with
  | none => m
  | some k => upsert d k (upd i) m

/-- The key of an aggregation record: none when the record is skipped. -/
def aggKey (o : ApiObs) : Option String :=
  match o.taxon with
  | none => none
  | some t => if pyLower t.name = "" then none else some (pyLower t.name)

/-- The entry update of an aggregation record (the taxon is re-extracted;
for records with a key it is present). -/
def aggUpd (o : ApiObs) (e : SpeciesEntry) : SpeciesEntry :=
  match o.taxon with
  | none => e
  | some t => updateEntry o t e

/-- The cell a key k accumulates over a full observation list. -/
def cellFor (g : ℚ) (obs : List Obs) (k : ℚ × ℚ) : CellAcc :=
  (obs.filter (fun o => gridKey g o = k)).foldl (fun c o => updateCell o c) defaultCell

/-- The cluster rows before sorting, one per distinct cell key in order of
first encounter. -/
def preClusters (g : ℚ) (obs : List Obs) : List Cluster :=
  (insOrder [] (obs.map (gridKey g))).map (fun k => mkCluster (cellFor g obs k))

/-- The entry a species key k accumulates over a full record list. -/
def entryFor (results : List ApiObs) (k : String) : SpeciesEntry :=
  (results.filter (fun o => aggKey o = some k)).foldl (fun e o => aggUpd o e) defaultEntry

/-- The species entries before sorting, one per distinct key in order of
first encounter. -/
def preEntries (results : List ApiObs) : List SpeciesEntry :=
  (insOrder [] (results.filterMap aggKey)).map (fun k => entryFor results k)

/-- s contains an ASCII uppercase letter. -/
def hasUpper (s : String) : Bool :=
  s.data.any (fun c => decide (65 ≤ c.toNat ∧ c.toNat ≤ 90))

/-! ### GeoMath and NearestRanker

cli.py line 183 calls inat.haversine_km, but no function of that name is
defined anywhere in the repository, so the distance function is modelled
from the spec. The ranking expression itself is cli.py lines 182-185. -/

/-- Modelled from the spec: haversine_km is invoked as inat.haversine_km in
cli.py (the nearest command) but is defined nowhere in the repository. Per
the spec it is the great-circle distance by the haversine formula on a
spherical Earth of radius 6371 km. -/
noncomputable def haversine_km (lat1 lng1 lat2 lng2 : ℝ) : ℝ :=
  let rlat1 := lat1 * (Real.pi / 180)
  let rlat2 := lat2 * (Real.pi / 180)
  let dlat := (lat2 - lat1) * (Real.pi / 180)
  let dlng := (lng2 - lng1) * (Real.pi / 180)
  let a := Real.sin (dlat / 2) ^ 2 +
    Real.cos rlat1 * Real.cos rlat2 * Real.sin (dlng / 2) ^ 2
  2 * 6371 * Real.arcsin (Real.sqrt a)

/-- The key comparison of the nearest command: sorted(..., key=lambda x: x[0])
compares the distance components. -/
noncomputable def distLe (a b : ℝ × Obs) : Bool := decide (a.1 ≤ b.1)

/-- The generator element of the nearest command: the pair
(inat.haversine_km(lat, lng, obs["lat"], obs["lng"]), obs). -/
noncomputable def pairDist (from_lat from_lng : ℝ) (o : Obs) : ℝ × Obs :=
  (haversine_km from_lat from_lng (o.lat : ℝ) (o.lng : ℝ), o)

/-- The ranking expression of the nearest command (cli.py lines 182-185):
pair every observation with its distance from the reference point and sort
stably (Python sorted) by the distance key ascending. -/
noncomputable def rank (observations : List Obs) (from_lat from_lng : ℝ) : List (ℝ × Obs) :=
  (observations.map (pairDist from_lat from_lng)).mergeSort distLe

theorem alookup_upsert_self {κ ν : Type} [DecidableEq κ] (d : ν) (k : κ)
    (f : ν → ν) (m : List (κ × ν)) :
    alookup k (upsert d k f m) = some (f ((alookup k m).getD d)) := by
  induction m with
  | nil => simp [upsert, alookup]
  | cons kv rest ih =>
    obtain ⟨k', v⟩ := kv
    by_cases h : k' = k
    · subst h
      simp [upsert, alookup]
    · simp [upsert, alookup, h, ih]

theorem alookup_upsert_ne {κ ν : Type} [DecidableEq κ] (d : ν) (k k' : κ)
    (f : ν → ν) (m : List (κ × ν)) (h : k' ≠ k) :
    alookup k' (upsert d k f m) = alookup k' m := by
  have hkk : ¬ (k = k') := fun hh => h hh.symm
  induction m with
  | nil => simp only [upsert, alookup, if_neg hkk]
  | cons kv rest ih =>
    obtain ⟨k'', v⟩ := kv
    by_cases h2 : k'' = k
    · subst h2
      simp only [upsert, if_pos rfl, alookup, if_neg hkk]
    · simp only [upsert, if_neg h2, alookup, ih]

theorem akeys_upsert {κ ν : Type} [DecidableEq κ] (d : ν) (k : κ) (f : ν → ν)
    (m : List (κ × ν)) :
    akeys (upsert d k f m) = if k ∈ akeys m then akeys m else akeys m ++ [k] := by
  induction m with
  | nil => simp [upsert, akeys]
  | cons kv rest ih =>
    obtain ⟨k', v⟩ := kv
    by_cases h : k' = k
    · subst h
      simp [upsert, akeys]
    · have hne : ¬ k = k' := fun hh => h hh.symm
      simp only [upsert, if_neg h]
      show k' :: akeys (upsert d k f rest) =
        if k ∈ k' :: akeys rest then k' :: akeys rest else (k' :: akeys rest) ++ [k]
      rw [ih]
      by_cases h2 : k ∈ akeys rest
      · rw [if_pos h2, if_pos (List.mem_cons_of_mem _ h2)]
      · have hnm : k ∉ k' :: akeys rest := by
          intro hm
          rcases List.mem_cons.mp hm with he | hm2
          · exact hne he
          · exact h2 hm2
        rw [if_neg h2, if_neg hnm]
        rfl

theorem alookup_eq_none_iff {κ ν : Type} [DecidableEq κ] (k : κ) (m : List (κ × ν)) :
    alookup k m = none ↔ k ∉ akeys m := by
  induction m with
  | nil => simp [alookup, akeys]
  | cons kv rest ih =>
    obtain ⟨k', v⟩ := kv
    by_cases h : k' = k
    · subst h
      simp [alookup, akeys]
    · have hne : k ≠ k' := fun hh => h hh.symm
      simp only [alookup, if_neg h, akeys, List.map_cons, List.mem_cons]
      rw [ih]
      show k ∉ akeys rest ↔ _
      constructor
      · intro hnm hor
        rcases hor with he | hm
        · exact hne he
        · exact hnm hm
      · intro hall
        intro hm
        exact hall (Or.inr hm)

/-- An association list with nodup keys is the map of its key list through
its lookup function. -/
theorem assoc_ext {κ ν : Type} [DecidableEq κ] (v : κ → ν) :
    ∀ (m : List (κ × ν)) (K : List κ), K.Nodup → akeys m = K →
      (∀ k ∈ K, alookup k m = some (v k)) → m = K.map (fun k => (k, v k))
  | [], K, _, hk, _ => by simp [akeys] at hk; simp [hk.symm]
  | (k0, v0) :: rest, K, hnd, hk, hl => by
    have hK : K = k0 :: akeys rest := by simpa [akeys] using hk.symm
    subst hK
    have hv0 : v0 = v k0 := by
      have h1 := hl k0 (by simp)
      simpa [alookup] using h1
    have hnd' : (akeys rest).Nodup := (List.nodup_cons.mp hnd).2
    have hk0 : k0 ∉ akeys rest := (List.nodup_cons.mp hnd).1
    have hrest : rest = (akeys rest).map (fun k => (k, v k)) := by
      refine assoc_ext v rest (akeys rest) hnd' rfl ?_
      intro k hkmem
      have hne : k0 ≠ k := fun h => hk0 (h ▸ hkmem)
      have := hl k (by simp [hkmem])
      simpa [alookup, hne] using this
    simp [hv0, ← hrest]

theorem mem_insOrder {κ : Type} [DecidableEq κ] (ks : List κ) :
    ∀ (acc : List κ) (a : κ), a ∈ insOrder acc ks ↔ a ∈ acc ∨ a ∈ ks := by
  induction ks with
  | nil => simp [insOrder]
  | cons k t ih =>
    intro acc a
    show a ∈ insOrder (if k ∈ acc then acc else acc ++ [k]) t ↔ _
    rw [ih]
    by_cases h : k ∈ acc
    · rw [if_pos h]
      constructor
      · rintro (ha | ha)
        · exact Or.inl ha
        · exact Or.inr (List.mem_cons_of_mem _ ha)
      · rintro (ha | ha)
        · exact Or.inl ha
        · rcases List.mem_cons.mp ha with he | ht
          · exact Or.inl (he ▸ h)
          · exact Or.inr ht
    · rw [if_neg h]
      simp [List.mem_append, List.mem_cons, or_assoc]

theorem nodup_insOrder {κ : Type} [DecidableEq κ] (ks : List κ) :
    ∀ (acc : List κ), acc.Nodup → (insOrder acc ks).Nodup := by
  induction ks with
  | nil => intro acc h; simpa [insOrder] using h
  | cons k t ih =>
    intro acc hacc
    show ((insOrder (if k ∈ acc then acc else acc ++ [k]) t)).Nodup
    by_cases h : k ∈ acc
    · rw [if_pos h]
      exact ih acc hacc
    · rw [if_neg h]
      refine ih (acc ++ [k]) ?_
      simp [List.nodup_append, hacc, h]

theorem alookup_foldl_mapStep {ι κ ν : Type} [DecidableEq ι] [DecidableEq κ]
    (key : ι → Option κ) (upd : ι → ν → ν) (d : ν) (l : List ι) :
    ∀ (m : List (κ × ν)) (k : κ),
      alookup k (l.foldl (mapStep key upd d) m) =
        if l.filter (fun i => key i = some k) = [] then alookup k m
        else some ((l.filter (fun i => key i = some k)).foldl
          (fun v i => upd i v) ((alookup k m).getD d)) := by
  induction l with
  | nil => simp
  | cons i t ih =>
    intro m k
    show alookup k (t.foldl (mapStep key upd d) (mapStep key upd d m i)) = _
    cases hki : key i with
    | none =>
      rw [ih]
      simp only [mapStep, hki]
      simp [List.filter_cons, hki]
    | some k0 =>
      by_cases hk : k0 = k
      · subst hk
        rw [ih]
        simp only [mapStep, hki, alookup_upsert_self]
        by_cases ht : t.filter (fun j => key j = some k0) = []
        · simp [List.filter_cons, hki, ht]
        · simp [List.filter_cons, hki, ht]
      · rw [ih]
        simp only [mapStep, hki]
        rw [alookup_upsert_ne d k0 k (upd i) m (fun hh => hk hh.symm)]
        simp [List.filter_cons, hki, hk]

theorem akeys_foldl_mapStep {ι κ ν : Type} [DecidableEq κ]
    (key : ι → Option κ) (upd : ι → ν → ν) (d : ν) (l : List ι) :
    ∀ (m : List (κ × ν)),
      akeys (l.foldl (mapStep key upd d) m) = insOrder (akeys m) (l.filterMap key) := by
  induction l with
  | nil => simp [insOrder]
  | cons i t ih =>
    intro m
    show akeys (t.foldl (mapStep key upd d) (mapStep key upd d m i)) = _
    cases hki : key i with
    | none =>
      rw [ih]
      simp only [mapStep, hki, List.filterMap_cons]
    | some k0 =>
      rw [ih]
      simp only [mapStep, hki, List.filterMap_cons]
      rw [akeys_upsert]
      rfl

/-! ### The two loops as instances of the generic fold -/

theorem clusterStep_eq_mapStep (g : ℚ) :
    clusterStep g = mapStep (fun o => some (gridKey g o)) (fun o c => updateCell o c) defaultCell := by
  funext m o
  rfl

theorem aggStep_eq_mapStep :
    aggStep = fun m o => mapStep aggKey aggUpd defaultEntry m o := by
  funext m o
  cases ht : o.taxon with
  | none => simp [aggStep, mapStep, aggKey, ht]
  | some t =>
    by_cases hn : pyLower t.name = ""
    · simp [aggStep, mapStep, aggKey, ht, hn]
    · have hupd : aggUpd o = updateEntry o t := by
        funext e
        simp [aggUpd, ht]
      simp [aggStep, mapStep, aggKey, ht, hn, hupd]

theorem foldl_clusterStep_eq (g : ℚ) (obs : List Obs) :
    obs.foldl (clusterStep g) [] =
      (insOrder [] (obs.map (gridKey g))).map (fun k => (k, cellFor g obs k)) := by
  rw [clusterStep_eq_mapStep]
  have hfm : obs.filterMap (fun o => some (gridKey g o)) = obs.map (gridKey g) := by
    induction obs with
    | nil => rfl
    | cons o t ih => simp [List.filterMap_cons, ih]
  refine assoc_ext (cellFor g obs) _ _ ?_ ?_ ?_
  · exact nodup_insOrder _ [] List.nodup_nil
  · rw [akeys_foldl_mapStep]
    rw [hfm]
    rfl
  · intro k hk
    have hkm : k ∈ obs.map (gridKey g) := by
      have := (mem_insOrder _ [] k).mp hk
      simpa using this
    rw [alookup_foldl_mapStep]
    have hfil : obs.filter (fun o => (some (gridKey g o) : Option (ℚ × ℚ)) = some k) =
        obs.filter (fun o => gridKey g o = k) := by
      apply List.filter_congr
      intro o _
      simp
    have hne : obs.filter (fun o => (some (gridKey g o) : Option (ℚ × ℚ)) = some k) ≠ [] := by
      rw [hfil]
      rcases List.mem_map.mp hkm with ⟨o, ho, hko⟩
      intro hnil
      have : o ∈ obs.filter (fun o => gridKey g o = k) := by
        simp [List.mem_filter, ho, hko]
      rw [hnil] at this
      exact absurd this (List.not_mem_nil o)
    rw [if_neg hne]
    show some _ = some _
    rw [hfil]
    rfl

theorem foldl_aggStep_eq (results : List ApiObs) :
    results.foldl aggStep [] =
      (insOrder [] (results.filterMap aggKey)).map (fun k => (k, entryFor results k)) := by
  rw [aggStep_eq_mapStep]
  refine assoc_ext (entryFor results) _ _ ?_ ?_ ?_
  · exact nodup_insOrder _ [] List.nodup_nil
  · rw [akeys_foldl_mapStep]
    rfl
  · intro k hk
    have hkm : k ∈ results.filterMap aggKey := by
      have := (mem_insOrder _ [] k).mp hk
      simpa using this
    rw [alookup_foldl_mapStep]
    have hne : results.filter (fun o => aggKey o = some k) ≠ [] := by
      rcases List.mem_filterMap.mp hkm with ⟨o, ho, hko⟩
      intro hnil
      have : o ∈ results.filter (fun o => aggKey o = some k) := by
        simp [List.mem_filter, ho, hko]
      rw [hnil] at this
      exact absurd this (List.not_mem_nil o)
    rw [if_neg hne]
    rfl

/-- The full clustering function, explicitly: a stable descending-count sort
of one row per distinct cell in first-encounter order. -/
theorem cluster_observations_ok (obs : List Obs) (g : ℚ) (hg : g ≠ 0) :
    cluster_observations obs g = Except.ok ((preClusters g obs).mergeSort clusterDescLe) := by
  have hcond : ¬ (g = 0 ∧ obs ≠ []) := fun hh => hg hh.1
  rw [cluster_observations, if_neg hcond]
  rw [foldl_clusterStep_eq]
  simp [preClusters, List.map_map]
  rfl

/-- The full aggregation pipeline on one batch, explicitly. -/
theorem finalize_aggregate_eq (results : List ApiObs) :
    finalize (aggregate_page [] results) = (preEntries results).mergeSort speciesDescLe := by
  rw [finalize, aggregate_page, foldl_aggStep_eq]
  simp [preEntries, List.map_map]
  rfl

/-! ### Projections of the cell accumulation -/

theorem updateCell_count (o : Obs) (c : CellAcc) : (updateCell o c).count = c.count + 1 := by
  rw [updateCell]
  split <;> rfl

theorem updateCell_lat_sum (o : Obs) (c : CellAcc) :
    (updateCell o c).lat_sum = c.lat_sum + o.lat := by
  rw [updateCell]
  split <;> rfl

theorem updateCell_lng_sum (o : Obs) (c : CellAcc) :
    (updateCell o c).lng_sum = c.lng_sum + o.lng := by
  rw [updateCell]
  split <;> rfl

theorem updateCell_last_seen (o : Obs) (c : CellAcc) :
    (updateCell o c).last_seen = max c.last_seen o.observed_on := by
  rw [updateCell]
  by_cases h : c.last_seen < o.observed_on
  · rw [if_pos h]
    exact (max_eq_right h.le).symm
  · rw [if_neg h]
    exact (max_eq_left (not_lt.mp h)).symm

theorem foldl_updateCell_count (l : List Obs) :
    ∀ c0 : CellAcc, (l.foldl (fun c o => updateCell o c) c0).count = c0.count + l.length := by
  induction l with
  | nil => intro c0; simp
  | cons o t ih =>
    intro c0
    show (t.foldl (fun c o => updateCell o c) (updateCell o c0)).count = _
    rw [ih, updateCell_count]
    simp
    omega

theorem foldl_updateCell_lat_sum (l : List Obs) :
    ∀ c0 : CellAcc,
      (l.foldl (fun c o => updateCell o c) c0).lat_sum = c0.lat_sum + (l.map Obs.lat).sum := by
  induction l with
  | nil => intro c0; simp
  | cons o t ih =>
    intro c0
    show (t.foldl (fun c o => updateCell o c) (updateCell o c0)).lat_sum = _
    rw [ih, updateCell_lat_sum]
    simp
    ring

theorem foldl_updateCell_lng_sum (l : List Obs) :
    ∀ c0 : CellAcc,
      (l.foldl (fun c o => updateCell o c) c0).lng_sum = c0.lng_sum + (l.map Obs.lng).sum := by
  induction l with
  | nil => intro c0; simp
  | cons o t ih =>
    intro c0
    show (t.foldl (fun c o => updateCell o c) (updateCell o c0)).lng_sum = _
    rw [ih, updateCell_lng_sum]
    simp
    ring

theorem foldl_updateCell_last_seen (l : List Obs) :
    ∀ c0 : CellAcc,
      (l.foldl (fun c o => updateCell o c) c0).last_seen =
        (l.map Obs.observed_on).foldl max c0.last_seen := by
  induction l with
  | nil => intro c0; simp
  | cons o t ih =>
    intro c0
    show (t.foldl (fun c o => updateCell o c) (updateCell o c0)).last_seen = _
    rw [ih, updateCell_last_seen]
    simp

/-! ### The total count over the cluster map -/

theorem sum_counts_upsert (k : ℚ × ℚ) (o : Obs) (m : List ((ℚ × ℚ) × CellAcc)) :
    ((upsert defaultCell k (updateCell o) m).map (fun kc => kc.2.count)).sum =
      (m.map (fun kc => kc.2.count)).sum + 1 := by
  induction m with
  | nil => simp [upsert, updateCell_count, defaultCell]
  | cons kv rest ih =>
    obtain ⟨k', c⟩ := kv
    by_cases h : k' = k
    · subst h
      simp [upsert, updateCell_count]
      omega
    · simp [upsert, if_neg h, ih]
      omega

theorem sum_counts_foldl (g : ℚ) (obs : List Obs) :
    ∀ m : List ((ℚ × ℚ) × CellAcc),
      ((obs.foldl (clusterStep g) m).map (fun kc => kc.2.count)).sum =
        (m.map (fun kc => kc.2.count)).sum + obs.length := by
  induction obs with
  | nil => intro m; simp
  | cons o t ih =>
    intro m
    show ((t.foldl (clusterStep g) (clusterStep g m o)).map (fun kc => kc.2.count)).sum = _
    rw [ih, clusterStep, sum_counts_upsert]
    simp
    omega

/-! ### Stability of the sort

Python sorted is a stable sort; List.mergeSort is one as well, and core
provides sublist_mergeSort. For any predicate p that forces the comparison
to hold between any two p-elements (in particular: having one fixed value of
the sort key), filtering by p commutes with the sort: the p-rows keep
exactly their pre-sort relative order. -/

theorem mergeSort_filter_stable {α : Type} (le : α → α → Bool) (p : α → Bool)
    (htrans : ∀ a b c, le a b → le b c → le a c)
    (htotal : ∀ a b, le a b || le b a)
    (hp : ∀ a b, p a → p b → le a b) (l : List α) :
    (l.mergeSort le).filter p = l.filter p := by
  have hpw : (l.filter p).Pairwise (fun a b => le a b = true) := by
    apply List.pairwise_of_forall_mem_list
    intro a ha b hb
    exact hp a b (List.mem_filter.mp ha).2 (List.mem_filter.mp hb).2
  have hsub : List.Sublist (l.filter p) (l.mergeSort le) :=
    List.sublist_mergeSort htrans htotal hpw (List.filter_sublist l)
  have hself : (l.filter p).filter p = l.filter p :=
    List.filter_eq_self.mpr (fun a ha => (List.mem_filter.mp ha).2)
  have hsub2 : List.Sublist (l.filter p) ((l.mergeSort le).filter p) := by
    have h2 := hsub.filter p
    rwa [hself] at h2
  have hperm : List.Perm ((l.mergeSort le).filter p) (l.filter p) :=
    (List.mergeSort_perm l le).filter p
  exact (hsub2.eq_of_length hperm.length_eq.symm).symm

/-! ### Tracking last_seen and place_guess through the cell fold -/

theorem updateCell_of_lt (o : Obs) (c : CellAcc) (h : c.last_seen < o.observed_on) :
    (updateCell o c).last_seen = o.observed_on ∧
      (updateCell o c).place_guess = o.place_guess := by
  rw [updateCell]
  exact ⟨by simp [h], by simp [h]⟩

theorem updateCell_of_not_lt (o : Obs) (c : CellAcc) (h : ¬ c.last_seen < o.observed_on) :
    (updateCell o c).last_seen = c.last_seen ∧
      (updateCell o c).place_guess = c.place_guess := by
  rw [updateCell]
  exact ⟨by simp [h], by simp [h]⟩

theorem foldl_updateCell_last_le (l : List Obs) :
    ∀ c0 : CellAcc, c0.last_seen ≤ (l.foldl (fun c o => updateCell o c) c0).last_seen := by
  induction l with
  | nil => intro c0; exact le_refl _
  | cons o t ih =>
    intro c0
    show c0.last_seen ≤ (t.foldl (fun c o => updateCell o c) (updateCell o c0)).last_seen
    refine le_trans ?_ (ih (updateCell o c0))
    rw [updateCell_last_seen]
    exact le_max_left _ _

theorem mem_le_foldl_updateCell_last (l : List Obs) :
    ∀ c0 : CellAcc, ∀ o ∈ l,
      o.observed_on ≤ (l.foldl (fun c o => updateCell o c) c0).last_seen := by
  induction l with
  | nil => intro c0 o ho; exact absurd ho (List.not_mem_nil o)
  | cons o t ih =>
    intro c0 o' ho'
    show o'.observed_on ≤ (t.foldl (fun c o => updateCell o c) (updateCell o c0)).last_seen
    rcases List.mem_cons.mp ho' with he | hm
    · subst he
      refine le_trans ?_ (foldl_updateCell_last_le t (updateCell o' c0))
      rw [updateCell_last_seen]
      exact le_max_right _ _
    · exact ih (updateCell o c0) o' hm

theorem foldl_updateCell_no_newer (l : List Obs) :
    ∀ c0 : CellAcc, (∀ o ∈ l, o.observed_on ≤ c0.last_seen) →
      (l.foldl (fun c o => updateCell o c) c0).last_seen = c0.last_seen ∧
      (l.foldl (fun c o => updateCell o c) c0).place_guess = c0.place_guess := by
  induction l with
  | nil => intro c0 _; exact ⟨rfl, rfl⟩
  | cons o t ih =>
    intro c0 hall
    show (t.foldl (fun c o => updateCell o c) (updateCell o c0)).last_seen = _ ∧ _
    have hno : ¬ c0.last_seen < o.observed_on :=
      not_lt.mpr (hall o (List.mem_cons_self o t))
    obtain ⟨hl, hpg⟩ := updateCell_of_not_lt o c0 hno
    have hall' : ∀ o' ∈ t, o'.observed_on ≤ (updateCell o c0).last_seen := by
      intro o' ho'
      rw [hl]
      exact hall o' (List.mem_cons_of_mem o ho')
    obtain ⟨ihl, ihp⟩ := ih (updateCell o c0) hall'
    exact ⟨ihl.trans hl, ihp.trans hpg⟩

/-- When some observation strictly beats the starting last_seen, the final
place_guess is the place_guess of the first observation in the list whose
observed_on equals the final last_seen. -/
theorem foldl_updateCell_place (l : List Obs) :
    ∀ c0 : CellAcc, (∃ o ∈ l, c0.last_seen < o.observed_on) →
      ∃ os, l.find?
          (fun o => o.observed_on = (l.foldl (fun c o => updateCell o c) c0).last_seen) = some os ∧
        (l.foldl (fun c o => updateCell o c) c0).place_guess = os.place_guess := by
  induction l with
  | nil =>
    intro c0 h
    rcases h with ⟨o, ho, _⟩
    exact absurd ho (List.not_mem_nil o)
  | cons o t ih =>
    intro c0 h
    show ∃ os, (o :: t).find?
        (fun x => x.observed_on = (t.foldl (fun c o => updateCell o c) (updateCell o c0)).last_seen) = some os ∧
      (t.foldl (fun c o => updateCell o c) (updateCell o c0)).place_guess = os.place_guess
    by_cases hlt : c0.last_seen < o.observed_on
    · obtain ⟨hc1l, hc1p⟩ := updateCell_of_lt o c0 hlt
      by_cases h2 : ∃ o' ∈ t, (updateCell o c0).last_seen < o'.observed_on
      · rcases ih (updateCell o c0) h2 with ⟨os, hfind, hplace⟩
        rcases h2 with ⟨o', ho', hlt'⟩
        have hr : o.observed_on <
            (t.foldl (fun c o => updateCell o c) (updateCell o c0)).last_seen := by
          calc o.observed_on = (updateCell o c0).last_seen := hc1l.symm
            _ < o'.observed_on := hlt'
            _ ≤ _ := mem_le_foldl_updateCell_last t (updateCell o c0) o' ho'
        refine ⟨os, ?_, hplace⟩
        rw [List.find?_cons_of_neg _ (by simp [ne_of_lt hr]), hfind]
      · push_neg at h2
        obtain ⟨hfl, hfp⟩ := foldl_updateCell_no_newer t (updateCell o c0)
          (fun o' ho' => h2 o' ho')
        refine ⟨o, ?_, ?_⟩
        · rw [List.find?_cons_of_pos _ (by simp [hfl, hc1l])]
        · rw [hfp, hc1p]
    · obtain ⟨hc1l, hc1p⟩ := updateCell_of_not_lt o c0 hlt
      rcases h with ⟨o', ho', hlt'⟩
      have ho'' : o' ∈ t := by
        rcases List.mem_cons.mp ho' with he | hm
        · subst he
          exact absurd hlt' hlt
        · exact hm
      have h2 : ∃ x ∈ t, (updateCell o c0).last_seen < x.observed_on :=
        ⟨o', ho'', by rw [hc1l]; exact hlt'⟩
      rcases ih (updateCell o c0) h2 with ⟨os, hfind, hplace⟩
      have hr : o.observed_on <
          (t.foldl (fun c o => updateCell o c) (updateCell o c0)).last_seen := by
        calc o.observed_on ≤ c0.last_seen := not_lt.mp hlt
          _ < o'.observed_on := hlt'
          _ ≤ _ := mem_le_foldl_updateCell_last t (updateCell o c0) o' ho''
      refine ⟨os, ?_, hplace⟩
      rw [List.find?_cons_of_neg _ (by simp [ne_of_lt hr]), hfind]

theorem clusterDescLe_trans :
    ∀ a b c : Cluster, clusterDescLe a b → clusterDescLe b c → clusterDescLe a c := by
  intro a b c h1 h2
  simp [clusterDescLe] at h1 h2 ⊢
  omega

theorem clusterDescLe_total : ∀ a b : Cluster, clusterDescLe a b || clusterDescLe b a := by
  intro a b
  simp [clusterDescLe]
  omega

theorem speciesDescLe_trans :
    ∀ a b c : SpeciesEntry, speciesDescLe a b → speciesDescLe b c → speciesDescLe a c := by
  intro a b c h1 h2
  simp [speciesDescLe] at h1 h2 ⊢
  omega

theorem speciesDescLe_total : ∀ a b : SpeciesEntry, speciesDescLe a b || speciesDescLe b a := by
  intro a b
  simp [speciesDescLe]
  omega

/-! ### Lowercasing lemmas -/

theorem pyLowerChar_toNat_of_upper (c : Char) (h : 65 ≤ c.toNat ∧ c.toNat ≤ 90) :
    (pyLowerChar c).toNat = c.toNat + 32 := by
  rw [pyLowerChar, dif_pos h]
  rfl

theorem not_upper_pyLowerChar (c : Char) :
    ¬ (65 ≤ (pyLowerChar c).toNat ∧ (pyLowerChar c).toNat ≤ 90) := by
  by_cases h : 65 ≤ c.toNat ∧ c.toNat ≤ 90
  · rw [pyLowerChar_toNat_of_upper c h]
    omega
  · rw [pyLowerChar, dif_neg h]
    exact h

theorem pyLowerChar_idem (c : Char) : pyLowerChar (pyLowerChar c) = pyLowerChar c := by
  rw [pyLowerChar, dif_neg (not_upper_pyLowerChar c)]

theorem data_pyLower (s : String) : (pyLower s).data = s.data.map pyLowerChar := rfl

theorem pyLower_idem (s : String) : pyLower (pyLower s) = pyLower s := by
  apply congrArg String.mk
  show (s.data.map pyLowerChar).map pyLowerChar = s.data.map pyLowerChar
  rw [List.map_map]
  apply List.map_congr_left
  intro c _
  exact pyLowerChar_idem c

theorem hasUpper_pyLower (s : String) : hasUpper (pyLower s) = false := by
  rw [hasUpper, data_pyLower]
  rw [List.any_eq_false]
  intro c hc
  rcases List.mem_map.mp hc with ⟨c0, _, hc0⟩
  subst hc0
  simpa using not_upper_pyLowerChar c0

/-! ### Character provenance through split and join -/

theorem wordsAux_chars (l : List Char) :
    ∀ (acc : List Char) (w : List Char), w ∈ wordsAux l acc →
      ∀ c ∈ w, c ∈ l ∨ c ∈ acc := by
  induction l with
  | nil =>
    intro acc w hw c hc
    rw [wordsAux] at hw
    by_cases he : acc.isEmpty
    · rw [if_pos he] at hw
      exact absurd hw (List.not_mem_nil w)
    · rw [if_neg he] at hw
      rcases List.mem_cons.mp hw with hww | hnil
      · subst hww
        exact Or.inr (List.mem_reverse.mp hc)
      · exact absurd hnil (List.not_mem_nil w)
  | cons c0 cs ih =>
    intro acc w hw c hc
    rw [wordsAux] at hw
    by_cases hws : isWsChar c0
    · rw [if_pos hws] at hw
      by_cases he : acc.isEmpty
      · rw [if_pos he] at hw
        rcases ih [] w hw c hc with hcs | hnil
        · exact Or.inl (List.mem_cons_of_mem c0 hcs)
        · exact absurd hnil (List.not_mem_nil c)
      · rw [if_neg he] at hw
        rcases List.mem_cons.mp hw with hww | hw2
        · subst hww
          exact Or.inr (List.mem_reverse.mp hc)
        · rcases ih [] w hw2 c hc with hcs | hnil
          · exact Or.inl (List.mem_cons_of_mem c0 hcs)
          · exact absurd hnil (List.not_mem_nil c)
    · rw [if_neg hws] at hw
      rcases ih (c0 :: acc) w hw c hc with hcs | hacc
      · exact Or.inl (List.mem_cons_of_mem c0 hcs)
      · rcases List.mem_cons.mp hacc with he | ha
        · exact Or.inl (he ▸ List.mem_cons_self c0 cs)
        · exact Or.inr ha

theorem pySplitWs_chars (s : String) (w : String) (hw : w ∈ pySplitWs s) :
    ∀ c ∈ w.data, c ∈ s.data := by
  intro c hc
  rcases List.mem_map.mp hw with ⟨lw, hlw, hww⟩
  subst hww
  rcases wordsAux_chars s.data [] lw hlw c hc with hm | hnil
  · exact hm
  · exact absurd hnil (List.not_mem_nil c)

theorem joinSp_chars (parts : List String) :
    ∀ c ∈ (joinSp parts).data, c = ' ' ∨ ∃ w ∈ parts, c ∈ w.data := by
  induction parts with
  | nil => intro c hc; exact absurd hc (List.not_mem_nil c)
  | cons s t ih =>
    intro c hc
    cases t with
    | nil =>
      have hj : joinSp [s] = s := rfl
      rw [hj] at hc
      exact Or.inr ⟨s, List.mem_cons_self s [], hc⟩
    | cons s2 t2 =>
      have hj : joinSp (s :: s2 :: t2) = s ++ " " ++ joinSp (s2 :: t2) := rfl
      rw [hj] at hc
      simp only [String.data_append] at hc
      rcases List.mem_append.mp hc with hc1 | hc2
      · rcases List.mem_append.mp hc1 with hcs | hsp
        · exact Or.inr ⟨s, List.mem_cons_self s _, hcs⟩
        · left
          simpa using hsp
      · rcases ih c hc2 with hsp | ⟨w, hwm, hcw⟩
        · exact Or.inl hsp
        · exact Or.inr ⟨w, List.mem_cons_of_mem s hwm, hcw⟩

theorem hasUpper_joinSp_take (cand : String) :
    hasUpper (joinSp ((pySplitWs (pyLower cand)).take 2)) = false := by
  rw [hasUpper, List.any_eq_false]
  intro c hc
  rcases joinSp_chars _ c hc with hsp | ⟨w, hwm, hcw⟩
  · subst hsp
    decide
  · have hw : w ∈ pySplitWs (pyLower cand) := List.mem_of_mem_take hwm
    have hcs : c ∈ (pyLower cand).data := pySplitWs_chars _ w hw c hcw
    rw [data_pyLower] at hcs
    rcases List.mem_map.mp hcs with ⟨c0, _, hc0⟩
    subst hc0
    simpa using not_upper_pyLowerChar c0

/-! ### Claim theorems -/

/-- Claim C1: the distance function (modelled from the spec, since
haversine_km is called in cli.py but defined nowhere in the repository)
computes the haversine great-circle distance on a sphere of radius 6371 km;
it is non-negative, exactly zero on identical points, and symmetric. -/
theorem haversine_km_props (lat lng lat1 lng1 lat2 lng2 : ℝ) :
    0 ≤ haversine_km lat1 lng1 lat2 lng2 ∧
    haversine_km lat lng lat lng = 0 ∧
    haversine_km lat1 lng1 lat2 lng2 = haversine_km lat2 lng2 lat1 lng1 := by
  refine ⟨?_, ?_, ?_⟩
  · simp only [haversine_km]
    have h1 : (0:ℝ) ≤ 2 * 6371 := by norm_num
    exact mul_nonneg h1 (Real.arcsin_nonneg.mpr (Real.sqrt_nonneg _))
  · simp [haversine_km]
  · simp only [haversine_km]
    have hs : ∀ x y : ℝ,
        Real.sin ((x - y) * (Real.pi / 180) / 2) ^ 2 =
          Real.sin ((y - x) * (Real.pi / 180) / 2) ^ 2 := by
      intro x y
      have h : (x - y) * (Real.pi / 180) / 2 = -((y - x) * (Real.pi / 180) / 2) := by
        ring
      rw [h, Real.sin_neg]
      ring
    rw [hs lat2 lat1, hs lng2 lng1,
      mul_comm (Real.cos (lat1 * (Real.pi / 180))) (Real.cos (lat2 * (Real.pi / 180)))]

/-- Claim C5: is_seen returns true exactly when the lowercased candidate is
in the seen set directly, or has more than two whitespace tokens and its
two-token binomial is in the seen set; the two quercus agrifolia examples
hold, and a candidate of at most two tokens that is not a direct member
gives false. -/
theorem is_seen_spec (cand : String) (seen : List String) :
    (is_seen cand seen = true ↔
      (pyLower cand ∈ seen ∨
        (2 < (pySplitWs (pyLower cand)).length ∧
          joinSp ((pySplitWs (pyLower cand)).take 2) ∈ seen))) ∧
    is_seen "quercus agrifolia var. oxyadenia" ["quercus agrifolia"] = true ∧
    is_seen "quercus agrifolia" ["quercus agrifolia var. oxyadenia"] = false ∧
    ((pySplitWs (pyLower cand)).length ≤ 2 → pyLower cand ∉ seen →
      is_seen cand seen = false) := by
  refine ⟨?_, by decide, by decide, ?_⟩
  · show (if pyLower cand ∈ seen then true
        else if 2 < (pySplitWs (pyLower cand)).length
          then decide (joinSp ((pySplitWs (pyLower cand)).take 2) ∈ seen)
          else false) = true ↔ _
    by_cases h1 : pyLower cand ∈ seen
    · simp [h1]
    · by_cases h2 : 2 < (pySplitWs (pyLower cand)).length
      · simp [h1, h2]
      · simp [h1, h2]
  · intro hlen hmem
    show (if pyLower cand ∈ seen then true
        else if 2 < (pySplitWs (pyLower cand)).length
          then decide (joinSp ((pySplitWs (pyLower cand)).take 2) ∈ seen)
          else false) = false
    rw [if_neg hmem, if_neg (not_lt.mpr hlen)]

/-- Claim C10: is_seen lowercases only the candidate: it is invariant under
pre-lowercasing the candidate, and entries of the seen set that contain an
ASCII uppercase letter never influence the result (removing them all
changes nothing, for the direct match and for the binomial fallback alike). -/
theorem is_seen_lower_candidate_only (cand : String) (seen : List String) :
    is_seen cand seen = is_seen (pyLower cand) seen ∧
    is_seen cand seen = is_seen cand (seen.filter (fun e => !(hasUpper e))) := by
  constructor
  · rw [is_seen, is_seen, pyLower_idem]
  · have hmem1 : (pyLower cand ∈ seen.filter (fun e => !(hasUpper e))) ↔
        pyLower cand ∈ seen := by
      constructor
      · exact fun h => (List.mem_filter.mp h).1
      · intro h
        exact List.mem_filter.mpr ⟨h, by simp [hasUpper_pyLower]⟩
    have hmem2 : (joinSp ((pySplitWs (pyLower cand)).take 2) ∈
          seen.filter (fun e => !(hasUpper e))) ↔
        joinSp ((pySplitWs (pyLower cand)).take 2) ∈ seen := by
      constructor
      · exact fun h => (List.mem_filter.mp h).1
      · intro h
        exact List.mem_filter.mpr ⟨h, by simp [hasUpper_joinSp_take]⟩
    rw [is_seen, is_seen]
    simp only [hmem1, hmem2]

/-- Evaluating the clusterer on one observation: one cell, one row. -/
theorem cluster_observations_singleton (o : Obs) (g : ℚ) (hg : g ≠ 0) :
    cluster_observations [o] g = Except.ok [mkCluster (updateCell o defaultCell)] := by
  rw [cluster_observations_ok [o] g hg]
  have hins : insOrder [] ([o].map (gridKey g)) = [gridKey g o] := by
    simp [insOrder]
  have hcell : cellFor g [o] (gridKey g o) = updateCell o defaultCell := by
    simp [cellFor]
  rw [preClusters, hins]
  simp [hcell]

/-- Counterexample to claim C2: with grid_size = -0.1 (which is ≤ 0) and a
non-empty observation list the clusterer raises nothing and returns a normal
result, and with grid_size = 0 the error raised is ZeroDivisionError, not
InvalidArgument. -/
theorem cluster_grid_size_counterexample :
    cluster_observations [⟨34, -118, "2023-01-01", "LA"⟩] (-(1/10)) =
      Except.ok [⟨1, 34, -118, "2023-01-01", "LA"⟩] ∧
    (-(1/10) : ℚ) ≤ 0 ∧
    cluster_observations [⟨34, -118, "2023-01-01", "LA"⟩] 0 =
      Except.error PyErr.zeroDivisionError ∧
    PyErr.zeroDivisionError ≠ PyErr.invalidArgument := by
  refine ⟨?_, by norm_num, ?_, by decide⟩
  · rw [cluster_observations_singleton _ _ (by norm_num)]
    have hlt : ("" : String) < "2023-01-01" := by
      rw [String.lt_iff_toList_lt]
      decide
    norm_num [mkCluster, updateCell, defaultCell, hlt]
  · rw [cluster_observations, if_pos ⟨rfl, by simp⟩]

/-- Claim C2 amended: cluster_observations performs no grid_size validation
and never raises InvalidArgument. With grid_size ≠ 0 (negative included) it
returns a result; with grid_size = 0 it returns the empty result on empty
input and raises ZeroDivisionError (from the grid division) on non-empty
input, surfaced directly to the caller. -/
theorem cluster_no_invalid_argument (obs : List Obs) (g : ℚ) :
    (g ≠ 0 → ∃ cs, cluster_observations obs g = Except.ok cs) ∧
    (g = 0 → obs = [] → cluster_observations obs g = Except.ok []) ∧
    (g = 0 → obs ≠ [] → cluster_observations obs g = Except.error PyErr.zeroDivisionError) ∧
    cluster_observations obs g ≠ Except.error PyErr.invalidArgument := by
  refine ⟨?_, ?_, ?_, ?_⟩
  · intro hg
    exact ⟨_, cluster_observations_ok obs g hg⟩
  · intro hg hobs
    subst hg
    subst hobs
    rw [cluster_observations, if_neg (by simp)]
    simp
  · intro hg hobs
    rw [cluster_observations, if_pos ⟨hg, hobs⟩]
  · rw [cluster_observations]
    by_cases h : g = 0 ∧ obs ≠ []
    · rw [if_pos h]
      simp
    · rw [if_neg h]
      simp

/-- Counterexample to claim C3: a single observation with an empty
observed_on and a non-empty place_guess yields a cluster whose place_guess
is the empty default, not the place_guess of that first observation. -/
theorem cluster_place_guess_counterexample :
    cluster_observations [⟨34, -118, "", "Somewhere"⟩] (1/10) =
      Except.ok [⟨1, 34, -118, "", ""⟩] ∧
    ("" : String) ≠ "Somewhere" := by
  refine ⟨?_, by decide⟩
  rw [cluster_observations_singleton _ _ (by norm_num)]
  have hnlt : ¬ (("" : String) < "") := lt_irrefl _
  norm_num [mkCluster, updateCell, defaultCell, hnlt]

/-- Claim C3 amended: within each cell, last_seen is the maximum observed_on
of the cell group (so the greatest non-empty date when one exists, else the
empty string), and place_guess is the place_guess of the first observation
of the group attaining that maximum when the maximum is non-empty; when
every observed_on in the cell is empty (in particular for a first
observation with empty observed_on) the place_guess stays the empty default
and is never taken from any observation. -/
theorem cluster_last_seen_place_guess (obs : List Obs) (g : ℚ) (hg : g ≠ 0) :
    ∃ cs, cluster_observations obs g = Except.ok cs ∧
      ∀ c ∈ cs, ∃ k, k ∈ obs.map (gridKey g) ∧
        (c.last_seen =
          ((obs.filter (fun o => gridKey g o = k)).map Obs.observed_on).foldl max "") ∧
        (c.last_seen = "" → c.place_guess = "") ∧
        (c.last_seen ≠ "" →
          ∃ os, (obs.filter (fun o => gridKey g o = k)).find?
              (fun o => o.observed_on = c.last_seen) = some os ∧
            c.place_guess = os.place_guess) := by
  refine ⟨_, cluster_observations_ok obs g hg, ?_⟩
  intro c hc
  rw [List.mem_mergeSort] at hc
  rw [preClusters] at hc
  rcases List.mem_map.mp hc with ⟨k, hkins, hck⟩
  have hkm : k ∈ obs.map (gridKey g) := by
    have := (mem_insOrder _ [] k).mp hkins
    simpa using this
  refine ⟨k, hkm, ?_, ?_, ?_⟩
  · rw [← hck]
    show (cellFor g obs k).last_seen = _
    rw [cellFor, foldl_updateCell_last_seen]
    rfl
  · intro hemp
    rw [← hck] at hemp ⊢
    show (cellFor g obs k).place_guess = ""
    have hall : ∀ o ∈ obs.filter (fun o => gridKey g o = k), o.observed_on ≤ "" := by
      intro o ho
      have h1 := mem_le_foldl_updateCell_last
        (obs.filter (fun o => gridKey g o = k)) defaultCell o ho
      have h2 : (cellFor g obs k).last_seen = "" := hemp
      rw [cellFor] at h2
      rw [h2] at h1
      exact h1
    have := foldl_updateCell_no_newer (obs.filter (fun o => gridKey g o = k))
      defaultCell hall
    exact this.2
  · intro hne
    rw [← hck] at hne ⊢
    show ∃ os, _ ∧ (mkCluster (cellFor g obs k)).place_guess = os.place_guess
    have hex : ∃ o ∈ obs.filter (fun o => gridKey g o = k),
        defaultCell.last_seen < o.observed_on := by
      by_contra hno
      push_neg at hno
      have := foldl_updateCell_no_newer (obs.filter (fun o => gridKey g o = k))
        defaultCell (fun o ho => not_lt.mp (hno o ho))
      exact hne this.1
    have := foldl_updateCell_place (obs.filter (fun o => gridKey g o = k))
      defaultCell hex
    rcases this with ⟨os, hfind, hplace⟩
    exact ⟨os, hfind, hplace⟩

/-- Witness for the amended claim C3 at a concrete input. -/
theorem cluster_last_seen_place_guess_witness :
    ((1 : ℚ)/10 ≠ 0) ∧
    (∃ cs, cluster_observations [⟨34, -118, "2023-01-01", "LA"⟩] ((1 : ℚ)/10) =
        Except.ok cs ∧
      ∀ c ∈ cs, ∃ k,
        k ∈ ([⟨34, -118, "2023-01-01", "LA"⟩] : List Obs).map (gridKey ((1 : ℚ)/10)) ∧
        (c.last_seen = ((([⟨34, -118, "2023-01-01", "LA"⟩] : List Obs).filter
            (fun o => gridKey ((1 : ℚ)/10) o = k)).map Obs.observed_on).foldl max "") ∧
        (c.last_seen = "" → c.place_guess = "") ∧
        (c.last_seen ≠ "" →
          ∃ os, (([⟨34, -118, "2023-01-01", "LA"⟩] : List Obs).filter
              (fun o => gridKey ((1 : ℚ)/10) o = k)).find?
                (fun o => o.observed_on = c.last_seen) = some os ∧
            c.place_guess = os.place_guess)) :=
  ⟨by norm_num,
    cluster_last_seen_place_guess [⟨34, -118, "2023-01-01", "LA"⟩] ((1 : ℚ)/10)
      (by norm_num)⟩

/-- Every successful cluster row is the row of some encountered cell key. -/
theorem mem_cluster_result (obs : List Obs) (g : ℚ) (c : Cluster)
    (hc : c ∈ ((obs.foldl (clusterStep g) []).map
        (fun kc => mkCluster kc.2)).mergeSort clusterDescLe) :
    ∃ k, k ∈ obs.map (gridKey g) ∧ c = mkCluster (cellFor g obs k) := by
  rw [List.mem_mergeSort] at hc
  rw [foldl_clusterStep_eq, List.map_map] at hc
  rcases List.mem_map.mp hc with ⟨k, hkins, hck⟩
  have hkm : k ∈ obs.map (gridKey g) := by
    have := (mem_insOrder _ [] k).mp hkins
    simpa using this
  exact ⟨k, hkm, hck.symm⟩

/-- The cell group of an encountered key is non-empty. -/
theorem group_ne_nil (obs : List Obs) (g : ℚ) (k : ℚ × ℚ)
    (hkm : k ∈ obs.map (gridKey g)) :
    obs.filter (fun o => gridKey g o = k) ≠ [] := by
  rcases List.mem_map.mp hkm with ⟨o, ho, hko⟩
  intro hnil
  have : o ∈ obs.filter (fun o => gridKey g o = k) := by
    simp [List.mem_filter, ho, hko]
  rw [hnil] at this
  exact absurd this (List.not_mem_nil o)

/-- Claim C4: for a non-degenerate grid size, clustering partitions the
input by rounded cell key: counts sum to the input length, every cluster is
non-empty, there is exactly one cluster per distinct cell key, and every
cluster carries the full group of its key with centre coordinates equal to
the arithmetic mean of the raw coordinates of that group. -/
theorem cluster_partition (obs : List Obs) (g : ℚ) (hg : g ≠ 0) :
    ∃ cs, cluster_observations obs g = Except.ok cs ∧
      (cs.map Cluster.count).sum = obs.length ∧
      (∀ c ∈ cs, 1 ≤ c.count) ∧
      cs.length = ((obs.map (gridKey g)).dedup).length ∧
      ∀ c ∈ cs, ∃ k, k ∈ obs.map (gridKey g) ∧
        c.count = (obs.filter (fun o => gridKey g o = k)).length ∧
        c.lat = ((obs.filter (fun o => gridKey g o = k)).map Obs.lat).sum / (c.count : ℚ) ∧
        c.lng = ((obs.filter (fun o => gridKey g o = k)).map Obs.lng).sum / (c.count : ℚ) := by
  have hcond : ¬ (g = 0 ∧ obs ≠ []) := fun hh => hg hh.1
  refine ⟨_, by rw [cluster_observations, if_neg hcond], ?_, ?_, ?_, ?_⟩
  · have hperm := List.mergeSort_perm
      ((obs.foldl (clusterStep g) []).map (fun kc => mkCluster kc.2)) clusterDescLe
    have hsum := (hperm.map Cluster.count).sum_eq
    rw [hsum, List.map_map]
    have hmm : (Cluster.count ∘ fun kc : (ℚ × ℚ) × CellAcc => mkCluster kc.2) =
        fun kc : (ℚ × ℚ) × CellAcc => kc.2.count := rfl
    rw [hmm, sum_counts_foldl g obs []]
    simp
  · intro c hc
    rcases mem_cluster_result obs g c hc with ⟨k, hkm, hck⟩
    subst hck
    show 1 ≤ (cellFor g obs k).count
    rw [cellFor, foldl_updateCell_count]
    have hne := group_ne_nil obs g k hkm
    have : 0 < (obs.filter (fun o => gridKey g o = k)).length :=
      List.length_pos.mpr hne
    simp [defaultCell]
    omega
  · rw [List.length_mergeSort, List.length_map, foldl_clusterStep_eq, List.length_map]
    have hd : List.Perm (insOrder [] (obs.map (gridKey g)))
        ((obs.map (gridKey g)).dedup) := by
      refine (List.perm_ext_iff_of_nodup (nodup_insOrder _ [] List.nodup_nil)
        (List.nodup_dedup _)).mpr ?_
      intro a
      rw [mem_insOrder, List.mem_dedup]
      simp
    exact hd.length_eq
  · intro c hc
    rcases mem_cluster_result obs g c hc with ⟨k, hkm, hck⟩
    subst hck
    refine ⟨k, hkm, ?_, ?_, ?_⟩
    · show (cellFor g obs k).count = _
      rw [cellFor, foldl_updateCell_count]
      simp [defaultCell]
    · show (cellFor g obs k).lat_sum / ((cellFor g obs k).count : ℚ) = _
      rw [cellFor, foldl_updateCell_lat_sum]
      simp [defaultCell, mkCluster, cellFor]
    · show (cellFor g obs k).lng_sum / ((cellFor g obs k).count : ℚ) = _
      rw [cellFor, foldl_updateCell_lng_sum]
      simp [defaultCell, mkCluster, cellFor]

/-- Witness for claim C4 at a concrete input: three observations, two in the
same 0.1-degree cell. -/
theorem cluster_partition_witness :
    ((1 : ℚ)/10 ≠ 0) ∧
    (∃ cs, cluster_observations
        [⟨34, -118, "2023-01-01", "LA"⟩, ⟨34 + 1/100, -118 - 1/100, "2023-06-01", "LA2"⟩,
         ⟨35, -119, "2023-02-03", "Elsewhere"⟩] ((1 : ℚ)/10) = Except.ok cs ∧
      (cs.map Cluster.count).sum =
        ([⟨34, -118, "2023-01-01", "LA"⟩, ⟨34 + 1/100, -118 - 1/100, "2023-06-01", "LA2"⟩,
          ⟨35, -119, "2023-02-03", "Elsewhere"⟩] : List Obs).length ∧
      (∀ c ∈ cs, 1 ≤ c.count) ∧
      cs.length = ((([⟨34, -118, "2023-01-01", "LA"⟩,
          ⟨34 + 1/100, -118 - 1/100, "2023-06-01", "LA2"⟩,
          ⟨35, -119, "2023-02-03", "Elsewhere"⟩] : List Obs).map
            (gridKey ((1 : ℚ)/10))).dedup).length ∧
      ∀ c ∈ cs, ∃ k, k ∈ ([⟨34, -118, "2023-01-01", "LA"⟩,
          ⟨34 + 1/100, -118 - 1/100, "2023-06-01", "LA2"⟩,
          ⟨35, -119, "2023-02-03", "Elsewhere"⟩] : List Obs).map (gridKey ((1 : ℚ)/10)) ∧
        c.count = (([⟨34, -118, "2023-01-01", "LA"⟩,
            ⟨34 + 1/100, -118 - 1/100, "2023-06-01", "LA2"⟩,
            ⟨35, -119, "2023-02-03", "Elsewhere"⟩] : List Obs).filter
              (fun o => gridKey ((1 : ℚ)/10) o = k)).length ∧
        c.lat = ((([⟨34, -118, "2023-01-01", "LA"⟩,
            ⟨34 + 1/100, -118 - 1/100, "2023-06-01", "LA2"⟩,
            ⟨35, -119, "2023-02-03", "Elsewhere"⟩] : List Obs).filter
              (fun o => gridKey ((1 : ℚ)/10) o = k)).map Obs.lat).sum / (c.count : ℚ) ∧
        c.lng = ((([⟨34, -118, "2023-01-01", "LA"⟩,
            ⟨34 + 1/100, -118 - 1/100, "2023-06-01", "LA2"⟩,
            ⟨35, -119, "2023-02-03", "Elsewhere"⟩] : List Obs).filter
              (fun o => gridKey ((1 : ℚ)/10) o = k)).map Obs.lng).sum / (c.count : ℚ)) :=
  ⟨by norm_num,
    cluster_partition
      [⟨34, -118, "2023-01-01", "LA"⟩, ⟨34 + 1/100, -118 - 1/100, "2023-06-01", "LA2"⟩,
       ⟨35, -119, "2023-02-03", "Elsewhere"⟩] ((1 : ℚ)/10) (by norm_num)⟩

/-- Claim C7: both output sequences are stably sorted descending on the
single count key: they are pairwise descending, and restricting to any one
count value yields exactly the rows of that count in first-encounter order
(preClusters and preEntries list cells and species in the order their keys
were first seen). -/
theorem outputs_sorted_stable (obs : List Obs) (g : ℚ) (results : List ApiObs)
    (n : ℕ) (hg : g ≠ 0) :
    ∃ cs, cluster_observations obs g = Except.ok cs ∧
      cs.Pairwise (fun a b => b.count ≤ a.count) ∧
      cs.filter (fun c => c.count = n) = (preClusters g obs).filter (fun c => c.count = n) ∧
      (finalize (aggregate_page [] results)).Pairwise (fun a b => b.count ≤ a.count) ∧
      (finalize (aggregate_page [] results)).filter (fun e => e.count = n) =
        (preEntries results).filter (fun e => e.count = n) := by
  refine ⟨_, cluster_observations_ok obs g hg, ?_, ?_, ?_, ?_⟩
  · refine List.Pairwise.imp ?_
      (List.sorted_mergeSort clusterDescLe_trans clusterDescLe_total (preClusters g obs))
    intro a b hab
    simpa [clusterDescLe] using hab
  · refine mergeSort_filter_stable clusterDescLe (fun c => decide (c.count = n))
      clusterDescLe_trans clusterDescLe_total ?_ (preClusters g obs)
    intro a b ha hb
    simp only [decide_eq_true_eq] at ha hb
    simp [clusterDescLe, ha, hb]
  · rw [finalize_aggregate_eq]
    refine List.Pairwise.imp ?_
      (List.sorted_mergeSort speciesDescLe_trans speciesDescLe_total (preEntries results))
    intro a b hab
    simpa [speciesDescLe] using hab
  · rw [finalize_aggregate_eq]
    refine mergeSort_filter_stable speciesDescLe (fun e => decide (e.count = n))
      speciesDescLe_trans speciesDescLe_total ?_ (preEntries results)
    intro a b ha hb
    simp only [decide_eq_true_eq] at ha hb
    simp [speciesDescLe, ha, hb]

/-- Witness for claim C7 at a concrete input. -/
theorem outputs_sorted_stable_witness :
    ∃ cs, cluster_observations [⟨34, -118, "2023-01-01", "LA"⟩] ((1 : ℚ)/10) =
        Except.ok cs ∧
      cs.Pairwise (fun a b => b.count ≤ a.count) := by
  rcases outputs_sorted_stable [⟨34, -118, "2023-01-01", "LA"⟩] ((1 : ℚ)/10) [] 0
    (by norm_num) with ⟨cs, h1, h2, _⟩
  exact ⟨cs, h1, h2⟩

/-- Claim C6: the aggregator keys by the lowercased scientific name; records
with a falsy taxon or empty name are skipped without effect; a processed
record increments exactly its own key count by one, overwrites the stored
taxon_id, scientific and common name with the record values, and appends a
location exactly when the record location parses; aggregating a page with
taxon X and no common name then a page with taxon X and common name Y gives
the single summary with common name Y and count 2. -/
theorem aggregate_record_spec (m : List (String × SpeciesEntry)) (o : ApiObs) :
    (o.taxon = none → aggStep m o = m) ∧
    (∀ t, o.taxon = some t → pyLower t.name = "" → aggStep m o = m) ∧
    (∀ t, o.taxon = some t → pyLower t.name ≠ "" →
      alookup (pyLower t.name) (aggStep m o) =
        some ⟨((alookup (pyLower t.name) m).getD defaultEntry).count + 1,
          t.taxon_id, t.name, t.preferred_common_name,
          ((alookup (pyLower t.name) m).getD defaultEntry).locations ++
            (parse_location o).toList⟩ ∧
      (∀ k, k ≠ pyLower t.name → alookup k (aggStep m o) = alookup k m)) ∧
    finalize (aggregate_page (aggregate_page []
        [⟨some ⟨some 7, "X", ""⟩, none, "", ""⟩])
        [⟨some ⟨some 7, "X", "Y"⟩, none, "", ""⟩]) =
      [⟨2, some 7, "X", "Y", []⟩] := by
  refine ⟨?_, ?_, ?_, ?_⟩
  · intro h
    simp [aggStep, h]
  · intro t ht hn
    simp [aggStep, ht, hn]
  · intro t ht hn
    constructor
    · simp only [aggStep, ht, if_neg hn]
      rw [alookup_upsert_self]
      rfl
    · intro k hk
      simp only [aggStep, ht, if_neg hn]
      exact alookup_upsert_ne _ _ _ _ _ hk
  · have hx : pyLower "X" = "x" := by decide
    have hne : ("x" : String) ≠ "" := by decide
    have h1 : aggStep [] (⟨some ⟨some 7, "X", ""⟩, none, "", ""⟩ : ApiObs) =
        [("x", (⟨1, some 7, "X", "", []⟩ : SpeciesEntry))] := by
      simp [aggStep, hx, hne, upsert, updateEntry, defaultEntry, parse_location]
    have h2 : aggStep [("x", (⟨1, some 7, "X", "", []⟩ : SpeciesEntry))]
        (⟨some ⟨some 7, "X", "Y"⟩, none, "", ""⟩ : ApiObs) =
        [("x", (⟨2, some 7, "X", "Y", []⟩ : SpeciesEntry))] := by
      simp [aggStep, hx, hne, upsert, updateEntry, parse_location]
    have h3 : aggregate_page [] [(⟨some ⟨some 7, "X", ""⟩, none, "", ""⟩ : ApiObs)] =
        [("x", (⟨1, some 7, "X", "", []⟩ : SpeciesEntry))] := by
      rw [aggregate_page, List.foldl_cons, List.foldl_nil, h1]
    have h4 : aggregate_page [("x", (⟨1, some 7, "X", "", []⟩ : SpeciesEntry))]
        [(⟨some ⟨some 7, "X", "Y"⟩, none, "", ""⟩ : ApiObs)] =
        [("x", (⟨2, some 7, "X", "Y", []⟩ : SpeciesEntry))] := by
      rw [aggregate_page, List.foldl_cons, List.foldl_nil, h2]
    rw [h3, h4, finalize]
    simp

/-- Witness for claim C6 at concrete inputs: a skipped record and a
processed record. -/
theorem aggregate_record_spec_witness :
    aggStep [] (⟨none, none, "", ""⟩ : ApiObs) = [] ∧
    alookup "x" (aggStep [] (⟨some ⟨some 7, "X", "Y"⟩, none, "", ""⟩ : ApiObs)) =
      some ⟨1, some 7, "X", "Y", []⟩ := by
  constructor
  · exact (aggregate_record_spec [] ⟨none, none, "", ""⟩).1 rfl
  · have h := ((aggregate_record_spec [] ⟨some ⟨some 7, "X", "Y"⟩, none, "", ""⟩).2.2.1
      ⟨some 7, "X", "Y"⟩ rfl (by decide)).1
    rw [show pyLower "X" = "x" from by decide] at h
    rw [h]
    rfl

/-- Claim C8: aggregation is streaming: folding the pages one batch at a
time through the same running map gives the same map, and hence the same
final summaries, as aggregating the concatenation of all pages at once. -/
theorem aggregate_streaming (m : List (String × SpeciesEntry))
    (pages : List (List ApiObs)) :
    pages.foldl aggregate_page m = aggregate_page m pages.flatten ∧
    finalize (pages.foldl aggregate_page m) =
      finalize (aggregate_page m pages.flatten) := by
  have h : pages.foldl aggregate_page m = aggregate_page m pages.flatten := by
    induction pages generalizing m with
    | nil => rfl
    | cons p ps ih =>
      show ps.foldl aggregate_page (aggregate_page m p) = _
      rw [ih]
      simp [aggregate_page, List.flatten_cons, List.foldl_append]
  exact ⟨h, by rw [h]⟩

/-- Claim C9: the nearest ranking pairs every observation with its
haversine_km distance from the reference point, sorts stably ascending by
distance (pairwise ascending; rows of any one distance value keep their
input order), and empty input gives empty output. -/
theorem rank_spec (observations : List Obs) (from_lat from_lng : ℝ) (v : ℝ) :
    rank [] from_lat from_lng = [] ∧
    (rank observations from_lat from_lng).Pairwise (fun a b => a.1 ≤ b.1) ∧
    List.Perm (rank observations from_lat from_lng)
      (observations.map (pairDist from_lat from_lng)) ∧
    (rank observations from_lat from_lng).filter (fun q => decide (q.1 = v)) =
      (observations.map (pairDist from_lat from_lng)).filter
        (fun q => decide (q.1 = v)) := by
  have htrans : ∀ a b c : ℝ × Obs, distLe a b → distLe b c → distLe a c := by
    intro a b c h1 h2
    rw [distLe, decide_eq_true_eq] at h1 h2 ⊢
    exact h1.trans h2
  have htotal : ∀ a b : ℝ × Obs, (distLe a b || distLe b a) := by
    intro a b
    rw [Bool.or_eq_true, distLe, distLe, decide_eq_true_eq, decide_eq_true_eq]
    exact le_total a.1 b.1
  refine ⟨?_, ?_, ?_, ?_⟩
  · rw [rank, List.map_nil, List.mergeSort_nil]
  · rw [rank]
    refine List.Pairwise.imp ?_ (@List.sorted_mergeSort (ℝ × Obs) distLe htrans htotal
      (observations.map (pairDist from_lat from_lng)))
    intro a b hab
    rw [distLe, decide_eq_true_eq] at hab
    exact hab
  · rw [rank]
    exact List.mergeSort_perm (observations.map (pairDist from_lat from_lng)) distLe
  · rw [rank]
    refine mergeSort_filter_stable distLe (fun q => decide (q.1 = v)) htrans htotal ?_
      (observations.map (pairDist from_lat from_lng))
    intro a b ha hb
    rw [decide_eq_true_eq] at ha hb
    rw [distLe, decide_eq_true_eq, ha, hb]

end Catrees
